import Mathlib

/-!
Verification of the Orchestrator action-menu core against its C++ sources.

The embedding covers:
* `src/editor/graph/actions/action_menu.cpp` — the filtered action tree
  (`_generate_filtered_actions`, `_make_item`, `_create_favorite_item_text`,
  `_remove_empty_action_nodes`, `_on_filter_text_changed`);
* `src/plugin/settings.cpp` — the persisted action-favorites store
  (`get_action_favorites`, `add_action_favorite`, `remove_action_favorite`);
* `src/editor/graph/graph_node.cpp` — the pin-opacity counters
  (`get_inputs_with_opacity`, `get_outputs_with_opacity`).

Godot `String` values are modelled by Lean `String`; the Godot string
operations used by the sources (`to_lower`, `split` with a one-character
separator, `trim_prefix(" ")`, `trim_suffix(" ")`) are given explicit
executable models below.  Godot's `to_lower` is modelled on the ASCII range,
which covers every comparison the sources perform on ASCII data.
-/

namespace Orchestrator

/-! ## Godot string model -/

/-- Model of Godot `String.to_lower` on one character (ASCII range:
uppercase `A`–`Z`, i.e. code points 65–90, are shifted by 32). -/
def gdCharToLower (c : Char) : Char :=
  if 65 ≤ c.toNat ∧ c.toNat ≤ 90 then Char.ofNat (c.toNat + 32) else c

/-- Model of Godot `String.to_lower`. -/
def gdToLower (s : String) : String :=
  ⟨s.data.map gdCharToLower⟩

/-- Auxiliary for `gdSplitChar`: split a character list on a separator,
keeping empty fields (Godot `split` with `allow_empty = true`, its default). -/
def splitCharAux (sep : Char) : List Char → List Char → List (List Char)
  | [], acc => [acc.reverse]
  | c :: rest, acc =>
      if c = sep then acc.reverse :: splitCharAux sep rest []
      else splitCharAux sep rest (c :: acc)

/-- Model of Godot `String.split` with a one-character separator (the sources
only ever split on `"/"` and `" "`).  Empty fields are kept, and splitting the
empty string yields `[""]`, as in Godot. -/
def gdSplitChar (s : String) (sep : Char) : List String :=
  (splitCharAux sep s.data []).map fun l => ⟨l⟩

/-- Model of Godot `String.trim_prefix(" ")`: removes one leading space
character, if present. -/
def gdTrimLeadingSpace (s : String) : String :=
  match s.data with
  | c :: rest => if c = Char.ofNat 32 then ⟨rest⟩ else s
  | [] => s

/-- Model of Godot `String.trim_suffix(" ")`: removes one trailing space
character, if present. -/
def gdTrimTrailingSpace (s : String) : String :=
  match s.data.reverse with
  | c :: rest => if c = Char.ofNat 32 then ⟨rest.reverse⟩ else s
  | [] => s

/-! ## Settings store (`src/plugin/settings.cpp`)

`ProjectSettings` is modelled by the one setting the favorites code touches,
`"orchestrator/settings/action_favorites"`: `favorites = none` means the
setting does not exist.  `writes` counts `set_setting` calls and `saves`
counts `ProjectSettings::save` calls, so "the code did not write the store"
is expressible as equality of whole states. -/

structure SettingsState where
  favorites : Option (List String)
  writes : Nat
  saves : Nat
deriving Repr, DecidableEq

/-- Model of `OrchestratorSettings::get_action_favorites`: read the setting with an
empty-array default. -/
def get_action_favorites (ps : SettingsState) : List String :=
  ps.favorites.getD []

/-- Model of `OrchestratorSettings::add_action_favorite`: create the setting (empty)
if absent, then append the name and save unless it is already present. -/
def add_action_favorite (ps : SettingsState) (p_action_name : String) : SettingsState :=
  let ps1 :=
    if ps.favorites.isNone then
      { ps with favorites := some [], writes := ps.writes + 1 }
    else ps
  let actions := get_action_favorites ps1
  if p_action_name ∈ actions then ps1
  else
    { ps1 with
      favorites := some (actions ++ [p_action_name])
      writes := ps1.writes + 1
      saves := ps1.saves + 1 }

/-- Model of `OrchestratorSettings::remove_action_favorite`: a no-op when the setting
does not exist; otherwise remove the first occurrence (at index
`actions.find(name)`) and save, when present. -/
def remove_action_favorite (ps : SettingsState) (p_action_name : String) : SettingsState :=
  match ps.favorites with
  | none => ps
  | some actions =>
      if p_action_name ∈ actions then
        { ps with
          favorites := some (actions.eraseIdx (actions.indexOf p_action_name))
          writes := ps.writes + 1
          saves := ps.saves + 1 }
      else ps

/-- A favorites-store operation, as triggered from
`OrchestratorGraphActionMenu::_on_tree_button_clicked`. -/
inductive FavOp where
  | add (name : String)
  | remove (name : String)
deriving Repr, DecidableEq

/-- Apply a sequence of favorite add/remove operations. -/
def applyFavOps (ps : SettingsState) : List FavOp → SettingsState
  | [] => ps
  | FavOp.add n :: rest => applyFavOps (add_action_favorite ps n) rest
  | FavOp.remove n :: rest => applyFavOps (remove_action_favorite ps n) rest

/-! ## Graph-node pin opacity counters (`src/editor/graph/graph_node.cpp`)

The widget state visible to the two counters: the port counts, the
enabled-slot flags, and the alpha component of each port colour.  Colour
alphas are `float`s compared with `UtilityFunctions::is_equal_approx`; the
alpha type and the approximate comparison are abstract parameters here, since
the claims under verification concern only which slot indices are examined. -/

structure GraphNodePorts (A : Type) where
  input_port_count : Nat
  output_port_count : Nat
  slot_enabled_left : Nat → Bool
  slot_enabled_right : Nat → Bool
  input_port_color_alpha : Nat → A
  output_port_color_alpha : Nat → A

/-- Count the indices `i < n` satisfying `p` (the `for` loops below). -/
def countRange (n : Nat) (p : Nat → Bool) : Nat :=
  ((List.range n).filter p).length

/-- Model of `OrchestratorGraphNode::get_inputs_with_opacity`: iterates
`i < get_input_port_count()`, counting enabled left slots whose input port
colour alpha approximately equals `p_opacity`. -/
def get_inputs_with_opacity {A : Type} (approx : A → A → Bool)
    (g : GraphNodePorts A) (p_opacity : A) : Nat :=
  countRange g.input_port_count fun i =>
    g.slot_enabled_left i && approx (g.input_port_color_alpha i) p_opacity

/-- Model of `OrchestratorGraphNode::get_outputs_with_opacity`: iterates
`i < get_input_port_count()` (the input count — this is what the source
does), counting enabled right slots whose output port colour alpha
approximately equals `p_opacity`. -/
def get_outputs_with_opacity {A : Type} (approx : A → A → Bool)
    (g : GraphNodePorts A) (p_opacity : A) : Nat :=
  countRange g.input_port_count fun i =>
    g.slot_enabled_right i && approx (g.output_port_color_alpha i) p_opacity

/-! ## Action menu (`src/editor/graph/actions/action_menu.cpp`)

The action registry entries.  `OrchestratorGraphActionSpec` carries a
slash-delimited category path, display text, tooltip and two icon names;
`OrchestratorGraphActionMenuItem` pairs a spec with an optional handler.
The handler is opaque to the menu code except for validity
(`get_handler().is_valid()`) and its class name (`get_class`), so it is
modelled as an optional class-name string. -/

structure ActionSpec where
  category : String
  text : String
  tooltip : String
  icon : String
  type_icon : String
deriving Repr, DecidableEq

structure MenuItem where
  spec : ActionSpec
  handler : Option String
deriving Repr, DecidableEq

/-- Validity of the handler, `get_handler().is_valid()`. -/
def MenuItem.hasHandler (mi : MenuItem) : Bool := mi.handler.isSome

/-- The space character (code point 32). -/
def spaceChar : Char := Char.ofNat 32

/-- The slash character (code point 47). -/
def slashChar : Char := Char.ofNat 47

/-- An editor theme, resolving icon names to icons (icons are identified by
opaque strings here). -/
def Theme : Type := String → Option String

/-- Modelled from the spec: `SceneUtils::get_icon` (not part of this excerpt)
resolves an icon name in the host editor theme; an unresolved name yields the
shared not-found placeholder texture, modelled as `none`.  The menu obtains
that placeholder by looking up the reserved name `"_not_found_"`. -/
def sceneGetIcon (theme : Theme) (p_name : String) : Option String := theme p_name

/-- Icon resolution for a newly created category node
(`_generate_filtered_actions`, creation branch): a segment named `"Integer"`
is looked up under the key `"int"`, any other segment under its own name; a
result equal to the not-found placeholder is replaced by the `"Object"`
icon. -/
def categoryIcon (theme : Theme) (seg : String) : Option String :=
  let icon := if seg == "Integer" then sceneGetIcon theme "int" else sceneGetIcon theme seg
  if icon = sceneGetIcon theme "_not_found_" then sceneGetIcon theme "Object" else icon

/-- The state of one `TreeItem` that the menu code reads or writes:
column-0 text, icon, tooltip and selectability; column-1 icon ("type icon")
and tooltip; the `"item"`, `"handler"` and `"favorite"` metadata; the
favorite button icon; and whether `Tree::set_selected` was applied to it. -/
structure NData where
  text : String := ""
  icon : Option String := none
  tooltip : String := ""
  selectable : Bool := true
  typeIcon : Option String := none
  typeTooltip : String := ""
  item : Option MenuItem := none
  hasHandler : Bool := false
  favButton : Option String := none
  favorite : Option Bool := none
  selected : Bool := false
deriving Repr, DecidableEq

/-- A forest of `TreeItem`s in first-child/next-sibling form, exactly the
shape Godot's `TreeItem` exposes through `get_first_child`/`get_next`.
The hidden root is not represented; a tree value stands for the sibling
chain of the root's children.  `create_child` appends at the end of a
sibling chain. -/
inductive TTree where
  | nil : TTree
  | node (data : NData) (child sibling : TTree) : TTree
deriving Repr, DecidableEq

/-- Whether `get_child_count() == 0` for the node owning `t` as its child chain. -/
def TTree.isNil : TTree → Bool
  | .nil => true
  | .node _ _ _ => false

/-- Append a tree at the end of a sibling chain (`create_child`). -/
def appendSib : TTree → TTree → TTree
  | .nil, t => t
  | .node d c s, t => .node d c (appendSib s t)

/-- Model of `OrchestratorGraphActionMenu::_make_item`: the data of a leaf created for
a menu item — text, column-0 icon/tooltip, selectable iff the handler is
valid, column-1 type icon and handler class tooltip, `"item"` metadata
always, `"handler"` metadata when the handler is valid. -/
def make_item (theme : Theme) (p_menu_item : MenuItem) (p_text : String) : NData :=
  { text := p_text
    icon := sceneGetIcon theme p_menu_item.spec.icon
    tooltip := p_menu_item.spec.tooltip
    selectable := p_menu_item.hasHandler
    typeIcon := sceneGetIcon theme p_menu_item.spec.type_icon
    typeTooltip := match p_menu_item.handler with
      | some cls => cls
      | none => ""
    item := some p_menu_item
    hasHandler := p_menu_item.hasHandler }

/-- The data of a category node created while walking a category path:
segment text, the resolved category icon, not selectable, no metadata. -/
def categoryNodeData (theme : Theme) (seg : String) : NData :=
  { text := seg
    icon := categoryIcon theme seg
    selectable := false }

/-- Case-insensitive text match used while walking existing children:
`child->get_text(0).to_lower() == categories[i].to_lower()`. -/
def foldEq (a b : String) : Bool := gdToLower a == gdToLower b

/-- Create the chain of category nodes for the remaining path segments
`s :: rest` (the `!found` branch of `_generate_filtered_actions`), with the
leaf attached below the last created node. -/
def mkChain (theme : Theme) (leaf : TTree) (s : String) : List String → TTree
  | [] => .node (categoryNodeData theme s) leaf .nil
  | s2 :: rest => .node (categoryNodeData theme s) (mkChain theme leaf s2 rest) .nil

/-- The category-path walk of `_generate_filtered_actions`: match the next
segment case-insensitively against the children in order; descend on the
first match; on no match, create the remaining segments as a fresh chain
appended at the end, then attach the leaf under the final node.  Returns the
updated forest together with the column-0 texts of the leaf's ancestor
chain (top-down), which is what `_create_favorite_item_text` later reads by
climbing the parents. -/
def insertLeaf (theme : Theme) (leaf : TTree) : List String → TTree → TTree × List String
  | [], f => (appendSib f leaf, [])
  | s :: rest, .nil => (mkChain theme leaf s rest, s :: rest)
  | s :: rest, .node d c sib =>
      if foldEq d.text s then
        let r := insertLeaf theme leaf rest c
        (.node d r.1 sib, d.text :: r.2)
      else
        let r := insertLeaf theme leaf (s :: rest) sib
        (.node d c r.1, r.2)

/-- Model of `OrchestratorGraphActionMenu::_create_favorite_item_text`: the texts of
the leaf's ancestors (join of the parent chain up to the hidden root with
`"/"`) wrapped in angle brackets, followed by the item's display text. -/
def create_favorite_item_text (ancestors : List String) (p_menu_item : MenuItem) : String :=
  "<" ++ String.intercalate "/" ancestors ++ "> " ++ p_menu_item.spec.text

/-- Data of the `"Favorites"` top node (created first, not selectable). -/
def favoritesNodeData : NData :=
  { text := "Favorites", selectable := false }

/-- Attach a leaf under the favorites node.  In the source, `favorites` is
the pointer captured at creation; since it is created before anything else,
it is the first node of the root's child chain, and it is only used when the
persisted favorites list is non-empty (so the chain is non-empty). -/
def appendUnderFavorites (f : TTree) (leaf : TTree) : TTree :=
  match f with
  | .node d c s => .node d (appendSib c leaf) s
  | .nil => .nil

/-- One iteration of the item loop in `_generate_filtered_actions`: split
the category on `"/"`, walk/create the path for all segments but the last,
attach the leaf (favorite button, favorite metadata and the
selection check `item->get_spec().category == _selection` included), and,
when the category is a persisted favorite, attach the synthetic favorites
leaf.  `mainLeafData` is the leaf state after the whole per-item block:
`_make_item` followed by the favorite button (`add_button`), the overwritten
column-1 tooltip, the `"favorite"` metadata and the selection check. -/
def mainLeafData (theme : Theme) (is_favorite : Bool) (selection : String)
    (item : MenuItem) : NData :=
  { make_item theme item item.spec.text with
    favButton := some (if is_favorite then "Favorites" else "NonFavorite")
    typeTooltip := if is_favorite then "Remove action from favorites."
      else "Add action to favorites."
    favorite := some is_favorite
    selected := item.spec.category == selection }

def processItem (theme : Theme) (action_favorites : List String) (selection : String)
    (f : TTree) (item : MenuItem) : TTree :=
  let categories := gdSplitChar item.spec.category slashChar
  let is_favorite := action_favorites.contains item.spec.category
  let leafData := mainLeafData theme is_favorite selection item
  let r := insertLeaf theme (.node leafData .nil .nil) categories.dropLast f
  if is_favorite then
    appendUnderFavorites r.1
      (.node (make_item theme item (create_favorite_item_text r.2 item)) .nil .nil)
  else r.1

/-- Model of `OrchestratorGraphActionMenu::_remove_empty_action_nodes`: post-order
prune — children are pruned first, then a node with no remaining children
and no `"handler"` metadata is deleted. -/
def remove_empty_action_nodes : TTree → TTree
  | .nil => .nil
  | .node d c s =>
      let c' := remove_empty_action_nodes c
      if c'.isNil && !d.hasHandler then remove_empty_action_nodes s
      else .node d c' (remove_empty_action_nodes s)

/-- The tree constructed by `_generate_filtered_actions` before pruning:
the `"Favorites"` node first (only when the persisted favorites list is
non-empty), then every item inserted in order. -/
def buildActionForest (theme : Theme) (action_favorites : List String)
    (selection : String) (items : List MenuItem) : TTree :=
  let f0 : TTree :=
    if action_favorites.isEmpty then .nil else .node favoritesNodeData .nil .nil
  items.foldl (processItem theme action_favorites selection) f0

/-- Model of `OrchestratorGraphActionMenu::_generate_filtered_actions`: build the
forest from the loaded items, then prune empty branches. -/
def generate_filtered_actions (theme : Theme) (action_favorites : List String)
    (selection : String) (items : List MenuItem) : TTree :=
  remove_empty_action_nodes (buildActionForest theme action_favorites selection items)

/-- Model of `OrchestratorGraphActionMenu::_on_filter_text_changed`: the keyword list
stored in the filter after a text change — trim one leading and one trailing
space, then, unless the result is empty, split on spaces and lowercase every
element. -/
def on_filter_text_changed (p_new_text : String) : List String :=
  let filter_text := gdTrimTrailingSpace (gdTrimLeadingSpace p_new_text)
  if filter_text.isEmpty then []
  else (gdSplitChar filter_text spaceChar).map gdToLower

/-! ## Auxiliary predicates used by the theorems -/

/-- Strip all leading and trailing spaces.  This renders the claim-side
phrase "with surrounding spaces trimmed"; the source trims at most one space
per side, and the two notions are compared in the C8 theorems. -/
def trimSpacesBoth (s : String) : String :=
  ⟨((s.data.dropWhile (· = spaceChar)).reverse.dropWhile (· = spaceChar)).reverse⟩

/-- The keyword list as the C8 claim describes it: tokens of the input with
surrounding spaces trimmed, lowercased, empty when the trimmed text is
empty.  (Tokenisation itself is kept identical to the source —
space-separated fields — so that the only difference under test is the
trimming.) -/
def claimed_keywords (t : String) : List String :=
  let t' := trimSpacesBoth t
  if t'.isEmpty then [] else (gdSplitChar t' spaceChar).map gdToLower

/-- Every node of a forest satisfies `p` on its data. -/
def allData (p : NData → Bool) : TTree → Bool
  | .nil => true
  | .node d c s => p d && allData p c && allData p s

/-- Every node of the forest either has at least one child or carries
`"handler"` metadata — the predicate `_remove_empty_action_nodes`
establishes. -/
def noEmptyNodes : TTree → Bool
  | .nil => true
  | .node d c s => (!c.isNil || d.hasHandler) && noEmptyNodes c && noEmptyNodes s

/-- The C1 invariant: every node either has at least one child or is a leaf
carrying an action (both the `"handler"` and the `"item"` metadata). -/
def prunedInvariant : TTree → Bool
  | .nil => true
  | .node d c s =>
      (!c.isNil || (d.hasHandler && d.item.isSome)) && prunedInvariant c && prunedInvariant s

/-- The data of the first node of a sibling chain, if any. -/
def TTree.headData : TTree → Option NData
  | .nil => none
  | .node d _ _ => some d

/-- The child forest of the first node of a sibling chain. -/
def TTree.headChild : TTree → TTree
  | .nil => .nil
  | .node _ c _ => c

/-- The category walk of `_generate_filtered_actions` as a pure lookup on an
already built tree: for each remaining segment, scan the sibling chain in
order for the first case-insensitive text match and descend into that
node's children.  `some` returns the child chain of the finally matched
node (for `[]`, the chain itself); `none` means some segment had no match.
Reapplied to a finished tree it identifies the node under which the walk
attached the leaves for that category prefix. -/
def descend : List String → TTree → Option TTree
  | [], f => some f
  | _ :: _, .nil => none
  | s :: rest, .node d c sib =>
      if foldEq d.text s then descend rest c else descend (s :: rest) sib

/-- The case-folded texts of the category nodes — nodes without `"item"`
metadata — of one sibling chain (children are not inspected). -/
def catTexts : TTree → List String
  | .nil => []
  | .node d _ s => if d.item.isNone then gdToLower d.text :: catTexts s else catTexts s

/-- Nowhere in the forest does a sibling chain hold two category nodes with
the same case-folded text: each category node's folded text does not recur
among its later siblings, recursively at every depth.  This is the "exactly
one category node per path segment" invariant. -/
def catDistinct : TTree → Bool
  | .nil => true
  | .node d c s =>
      (!(d.item.isNone && (catTexts s).contains (gdToLower d.text)))
        && catDistinct c && catDistinct s

/-- A node carrying `"handler"` metadata also carries `"item"` metadata —
an invariant of every node the construction creates. -/
def handlerHasItem (d : NData) : Bool := !d.hasHandler || d.item.isSome

/-- Some node of the forest (at any depth) has data satisfying `P`. -/
inductive MemData (P : NData → Prop) : TTree → Prop where
  | head {d c s} : P d → MemData P (.node d c s)
  | child {d c s} : MemData P c → MemData P (.node d c s)
  | sib {d c s} : MemData P s → MemData P (.node d c s)

/-- Some node of the top-level sibling chain satisfies `P` of its data and
its child forest. -/
inductive TopMem (P : NData → TTree → Prop) : TTree → Prop where
  | head {d c s} : P d c → TopMem P (.node d c s)
  | sib {d c s} : TopMem P s → TopMem P (.node d c s)

/-- Forest extension: every node of the left forest is still present, with
the same data, its children extended the same way, and new siblings possibly
appended at the end of any sibling chain.  Each `processItem` step extends
the forest in this sense. -/
inductive ExtF : TTree → TTree → Prop where
  | nil (t : TTree) : ExtF .nil t
  | node {d c c' s s'} : ExtF c c' → ExtF s s' → ExtF (.node d c s) (.node d c' s')

/-- A theme resolving no icon name at all. -/
def themeNone : Theme := fun _ => none

/-- A theme resolving only `"int"` and `"Object"`. -/
def themeInt : Theme := fun n =>
  if n = "int" then some "IntIcon" else if n = "Object" then some "ObjectIcon" else none

/-- The `Math/Add` item of the specification example. -/
def itemAdd : MenuItem := ⟨⟨"Math/Add", "Add", "", "", ""⟩, some "Handler"⟩

/-- The `Math/Subtract` item of the specification example. -/
def itemSubtract : MenuItem := ⟨⟨"Math/Subtract", "Subtract", "", "", ""⟩, some "Handler"⟩

/-- A favorited action without a valid handler. -/
def itemSolo : MenuItem := ⟨⟨"Solo", "SoloText", "", "", ""⟩, none⟩

/-- An action two levels deep under `Math/Vector`. -/
def itemVecAdd : MenuItem := ⟨⟨"Math/Vector/Add", "Add", "", "", ""⟩, some "Handler"⟩

/-- An unrelated action interleaved between the two `Math/Vector` ones. -/
def itemOther : MenuItem := ⟨⟨"Other/Thing", "Thing", "", "", ""⟩, some "Handler"⟩

/-- A second `Math/Vector` action whose category prefix differs in case. -/
def itemVecSub : MenuItem := ⟨⟨"MATH/vector/Sub", "Sub", "", "", ""⟩, some "Handler"⟩

/-! # Theorems

## Favorites store -/

theorem erase_append_singleton_of_not_mem (l : List String) (p : String) (h : p ∉ l) :
    (l ++ [p]).erase p = l := by
  rw [List.erase_append_right _ h]
  simp

theorem get_add_action_favorite_of_not_mem (ps : SettingsState) (p : String)
    (hp : p ∉ get_action_favorites ps) :
    (add_action_favorite ps p).favorites = some (get_action_favorites ps ++ [p]) := by
  cases hps : ps.favorites with
  | none =>
      simp [add_action_favorite, get_action_favorites, hps]
  | some l =>
      have hl : get_action_favorites ps = l := by simp [get_action_favorites, hps]
      rw [hl] at hp
      simp [add_action_favorite, get_action_favorites, hps, hp]

/-- C4: toggling a favorite twice restores the favorites contents.  Adding a
missing path and then removing it restores the stored list exactly; removing
a present path (from a duplicate-free list, i.e. a set) and adding it back
restores the same contents as a multiset (the path moves to the end of the
stored list). -/
theorem add_remove_favorite_roundtrip (ps : SettingsState) (p : String) :
    (p ∉ get_action_favorites ps →
      get_action_favorites (remove_action_favorite (add_action_favorite ps p) p)
        = get_action_favorites ps) ∧
    ((get_action_favorites ps).Nodup → p ∈ get_action_favorites ps →
      (get_action_favorites (add_action_favorite (remove_action_favorite ps p) p)).Perm
        (get_action_favorites ps)) := by
  constructor
  · intro hp
    have hadd := get_add_action_favorite_of_not_mem ps p hp
    have hmem : p ∈ get_action_favorites ps ++ [p] := by simp
    simp only [remove_action_favorite, hadd]
    rw [if_pos hmem]
    simp only [get_action_favorites, Option.getD_some, List.eraseIdx_indexOf_eq_erase]
    exact erase_append_singleton_of_not_mem _ _ hp
  · intro hnd hp
    cases hps : ps.favorites with
    | none => rw [get_action_favorites, hps] at hp; simp at hp
    | some l =>
        have hl : get_action_favorites ps = l := by simp [get_action_favorites, hps]
        rw [hl] at hp hnd ⊢
        have hrem : (remove_action_favorite ps p).favorites = some (l.erase p) := by
          simp [remove_action_favorite, hps, hp, List.eraseIdx_indexOf_eq_erase]
        have hne : p ∉ l.erase p := fun hmem => by
          rcases (List.Nodup.mem_erase_iff hnd).mp hmem with ⟨hne, _⟩
          exact hne rfl
        have hget : get_action_favorites (remove_action_favorite ps p) = l.erase p := by
          simp [get_action_favorites, hrem]
        have hadd := get_add_action_favorite_of_not_mem (remove_action_favorite ps p) p
          (hget ▸ hne)
        rw [hget] at hadd
        have : get_action_favorites (add_action_favorite (remove_action_favorite ps p) p)
            = l.erase p ++ [p] := by simp [get_action_favorites, hadd]
        rw [this]
        exact (List.perm_append_singleton p (l.erase p)).trans (List.perm_cons_erase hp).symm

/-- Witness for `add_remove_favorite_roundtrip` at concrete inputs. -/
theorem add_remove_favorite_roundtrip_witness :
    ("X" ∉ get_action_favorites ⟨some ["A", "B"], 0, 0⟩ ∧
      get_action_favorites
          (remove_action_favorite (add_action_favorite ⟨some ["A", "B"], 0, 0⟩ "X") "X")
        = get_action_favorites ⟨some ["A", "B"], 0, 0⟩) ∧
    ((get_action_favorites ⟨some ["A", "B"], 0, 0⟩).Nodup ∧
      "A" ∈ get_action_favorites ⟨some ["A", "B"], 0, 0⟩ ∧
      (get_action_favorites
          (add_action_favorite (remove_action_favorite ⟨some ["A", "B"], 0, 0⟩ "A") "A")).Perm
        (get_action_favorites ⟨some ["A", "B"], 0, 0⟩)) :=
  ⟨⟨by decide, (add_remove_favorite_roundtrip ⟨some ["A", "B"], 0, 0⟩ "X").1 (by decide)⟩,
    by decide,
    by decide,
    (add_remove_favorite_roundtrip ⟨some ["A", "B"], 0, 0⟩ "A").2 (by decide) (by decide)⟩

theorem nodup_add_action_favorite (ps : SettingsState) (p : String)
    (h : (get_action_favorites ps).Nodup) :
    (get_action_favorites (add_action_favorite ps p)).Nodup := by
  by_cases hp : p ∈ get_action_favorites ps
  · cases hps : ps.favorites with
    | none => rw [get_action_favorites, hps] at hp; simp at hp
    | some l =>
        have hl : get_action_favorites ps = l := by simp [get_action_favorites, hps]
        rw [hl] at hp h
        simp [add_action_favorite, get_action_favorites, hps, hp, hl, h]
  · have hadd := get_add_action_favorite_of_not_mem ps p hp
    rw [get_action_favorites, hadd]
    refine List.nodup_append.mpr ⟨h, List.nodup_singleton p, ?_⟩
    intro x hx hx'
    rw [List.mem_singleton] at hx'
    exact hp (hx' ▸ hx)

theorem nodup_remove_action_favorite (ps : SettingsState) (p : String)
    (h : (get_action_favorites ps).Nodup) :
    (get_action_favorites (remove_action_favorite ps p)).Nodup := by
  cases hps : ps.favorites with
  | none => simpa [remove_action_favorite, hps] using h
  | some l =>
      have hl : get_action_favorites ps = l := by simp [get_action_favorites, hps]
      rw [hl] at h
      by_cases hp : p ∈ l
      · simp only [remove_action_favorite, hps, if_pos hp, get_action_favorites,
          Option.getD_some, List.eraseIdx_indexOf_eq_erase]
        exact h.erase p
      · simp [remove_action_favorite, hps, hp, hl, h]

/-- C10: a no-op add (path already stored) and a no-op remove (path absent,
or setting missing) leave the whole settings state — stored value, write
count and save count — unchanged; and any sequence of add/remove operations
preserves freedom from duplicates. -/
theorem favorites_noop_and_nodup :
    (∀ (ps : SettingsState) (p : String),
      p ∈ get_action_favorites ps → add_action_favorite ps p = ps) ∧
    (∀ (ps : SettingsState) (p : String),
      p ∉ get_action_favorites ps → remove_action_favorite ps p = ps) ∧
    (∀ (ps : SettingsState) (ops : List FavOp),
      (get_action_favorites ps).Nodup →
      (get_action_favorites (applyFavOps ps ops)).Nodup) := by
  refine ⟨?_, ?_, ?_⟩
  · intro ps p hp
    cases hps : ps.favorites with
    | none => rw [get_action_favorites, hps] at hp; simp at hp
    | some l =>
        have hl : get_action_favorites ps = l := by simp [get_action_favorites, hps]
        rw [hl] at hp
        simp [add_action_favorite, get_action_favorites, hps, hp]
  · intro ps p hp
    cases hps : ps.favorites with
    | none => simp [remove_action_favorite, hps]
    | some l =>
        have hl : get_action_favorites ps = l := by simp [get_action_favorites, hps]
        rw [hl] at hp
        simp [remove_action_favorite, hps, hp]
  · intro ps ops
    induction ops generalizing ps with
    | nil => intro h; exact h
    | cons op rest ih =>
        intro h
        cases op with
        | add n => exact ih _ (nodup_add_action_favorite ps n h)
        | remove n => exact ih _ (nodup_remove_action_favorite ps n h)

/-- Witness for `favorites_noop_and_nodup` at concrete inputs. -/
theorem favorites_noop_and_nodup_witness :
    ("A" ∈ get_action_favorites ⟨some ["A"], 3, 2⟩ ∧
      add_action_favorite ⟨some ["A"], 3, 2⟩ "A" = ⟨some ["A"], 3, 2⟩) ∧
    ("B" ∉ get_action_favorites ⟨some ["A"], 3, 2⟩ ∧
      remove_action_favorite ⟨some ["A"], 3, 2⟩ "B" = ⟨some ["A"], 3, 2⟩) ∧
    ((get_action_favorites ⟨none, 0, 0⟩).Nodup ∧
      (get_action_favorites
        (applyFavOps ⟨none, 0, 0⟩ [.add "A", .add "B", .add "A", .remove "B"])).Nodup) :=
  ⟨⟨by decide, favorites_noop_and_nodup.1 ⟨some ["A"], 3, 2⟩ "A" (by decide)⟩,
    ⟨by decide, favorites_noop_and_nodup.2.1 ⟨some ["A"], 3, 2⟩ "B" (by decide)⟩,
    by decide,
    favorites_noop_and_nodup.2.2 ⟨none, 0, 0⟩ [.add "A", .add "B", .add "A", .remove "B"]
      (by decide)⟩

/-! ## Graph-node pin opacity counters -/

theorem countRange_congr (n : Nat) (p q : Nat → Bool) (h : ∀ i, i < n → p i = q i) :
    countRange n p = countRange n q := by
  unfold countRange
  rw [List.filter_congr fun a ha => h a (List.mem_range.mp ha)]

/-- C9: `get_outputs_with_opacity` examines exactly the slot indices below
the node's input port count — its result depends only on the input port
count and on the right-slot data below that bound, never on the output port
count or on ports at or beyond the input port count — while
`get_inputs_with_opacity` iterates the same input port count over the left
slots. -/
theorem opacity_counters_iterate_input_count :
    (∀ (A : Type) (approx : A → A → Bool) (g g' : GraphNodePorts A) (a : A),
        g.input_port_count = g'.input_port_count →
        (∀ i, i < g.input_port_count →
          g.slot_enabled_right i = g'.slot_enabled_right i ∧
          g.output_port_color_alpha i = g'.output_port_color_alpha i) →
        get_outputs_with_opacity approx g a = get_outputs_with_opacity approx g' a) ∧
    (∀ (A : Type) (approx : A → A → Bool) (g g' : GraphNodePorts A) (a : A),
        g.input_port_count = g'.input_port_count →
        (∀ i, i < g.input_port_count →
          g.slot_enabled_left i = g'.slot_enabled_left i ∧
          g.input_port_color_alpha i = g'.input_port_color_alpha i) →
        get_inputs_with_opacity approx g a = get_inputs_with_opacity approx g' a) := by
  constructor
  · intro A approx g g' a hn h
    unfold get_outputs_with_opacity
    rw [← hn]
    exact countRange_congr _ _ _ fun i hi => by rw [(h i hi).1, (h i hi).2]
  · intro A approx g g' a hn h
    unfold get_inputs_with_opacity
    rw [← hn]
    exact countRange_congr _ _ _ fun i hi => by rw [(h i hi).1, (h i hi).2]

/-- Witness for `opacity_counters_iterate_input_count`: two states agreeing
below the input port count `1` but differing in output port count (1 vs 5)
and in the right slots at indices `≥ 1` produce the same counts. -/
theorem opacity_counters_iterate_input_count_witness :
    ((⟨1, 1, fun _ => true, fun _ => true, fun _ => 0, fun _ => 0⟩ :
        GraphNodePorts Nat).input_port_count
      = (⟨1, 5, fun _ => true, fun i => i = 0, fun _ => 0, fun i => if i = 0 then 0 else 7⟩ :
        GraphNodePorts Nat).input_port_count) ∧
    get_outputs_with_opacity (· == ·)
        (⟨1, 1, fun _ => true, fun _ => true, fun _ => 0, fun _ => 0⟩ : GraphNodePorts Nat) 0
      = get_outputs_with_opacity (· == ·)
        (⟨1, 5, fun _ => true, fun i => i = 0, fun _ => 0, fun i => if i = 0 then 0 else 7⟩ :
          GraphNodePorts Nat) 0 :=
  ⟨rfl,
    opacity_counters_iterate_input_count.1 Nat (· == ·)
      ⟨1, 1, fun _ => true, fun _ => true, fun _ => 0, fun _ => 0⟩
      ⟨1, 5, fun _ => true, fun i => i = 0, fun _ => 0, fun i => if i = 0 then 0 else 7⟩
      0 rfl (by intro i hi; interval_cases i; exact ⟨by decide, by decide⟩)⟩

/-! ## Category icon resolution -/

/-- C6: a category segment named exactly `"Integer"` is resolved under the
key `"int"`, any other segment under its own name, and when the lookup fails
(the theme does not resolve the key, i.e. the not-found placeholder comes
back) the icon falls back to the `"Object"` icon.  The hypothesis records
that the reserved name `"_not_found_"` itself never resolves. -/
theorem category_icon_resolution (theme : Theme) (seg : String)
    (hnf : theme "_not_found_" = none) :
    categoryIcon theme seg
      = (theme (if seg = "Integer" then "int" else seg)).or (theme "Object") := by
  unfold categoryIcon sceneGetIcon
  rw [hnf]
  by_cases hseg : seg = "Integer"
  · subst hseg
    simp only [if_pos rfl]
    cases h : theme "int" with
    | none => simp [h]
    | some i => simp [h]
  · have hbeq : (seg == "Integer") = false := by
      simpa using hseg
    simp only [hbeq, if_neg hseg, Bool.false_eq_true, if_false]
    cases h : theme seg with
    | none => simp
    | some i => simp

/-- Witness for `category_icon_resolution`: with `themeInt` (resolving only
`"int"` and `"Object"`), `"Integer"` resolves through the `"int"` key and an
unknown segment falls back to the `"Object"` icon. -/
theorem category_icon_resolution_witness :
    (themeInt "_not_found_" = none ∧
      categoryIcon themeInt "Integer"
        = (themeInt (if "Integer" = "Integer" then "int" else "Integer")).or
            (themeInt "Object")) ∧
    categoryIcon themeInt "Mystery"
      = (themeInt (if "Mystery" = "Integer" then "int" else "Mystery")).or
          (themeInt "Object") :=
  ⟨⟨by decide, category_icon_resolution themeInt "Integer" (by decide)⟩,
    category_icon_resolution themeInt "Mystery" (by decide)⟩

/-! ## Empty registry -/

/-- C7: an empty action registry generates an empty displayed tree — no
nodes below the hidden root survive pruning — for every theme, every
persisted favorites list (also non-empty ones, whose `"Favorites"` node is
pruned away) and every remembered selection. -/
theorem empty_registry_empty_tree (theme : Theme) (action_favorites : List String)
    (selection : String) :
    generate_filtered_actions theme action_favorites selection [] = TTree.nil := by
  cases action_favorites with
  | nil => rfl
  | cons a rest => rfl

/-! ## Filter keywords -/

theorem charOfNat_toNat_lowercase : ∀ m, m < 123 → 97 ≤ m → (Char.ofNat m).toNat = m := by
  decide

theorem gdCharToLower_idem (c : Char) : gdCharToLower (gdCharToLower c) = gdCharToLower c := by
  unfold gdCharToLower
  by_cases h : 65 ≤ c.toNat ∧ c.toNat ≤ 90
  · rw [if_pos h]
    have h1 : (Char.ofNat (c.toNat + 32)).toNat = c.toNat + 32 :=
      charOfNat_toNat_lowercase _ (by omega) (by omega)
    rw [if_neg (by omega)]
  · rw [if_neg h, if_neg h]

theorem mapLower_idem (l : List Char) :
    (l.map gdCharToLower).map gdCharToLower = l.map gdCharToLower := by
  induction l with
  | nil => rfl
  | cons a l ih => simp only [List.map_cons, gdCharToLower_idem, ih]

theorem gdToLower_idem (s : String) : gdToLower (gdToLower s) = gdToLower s :=
  congrArg String.mk (mapLower_idem s.data)

/-- C8 counterexample: on the input of three spaces, the text with its
surrounding spaces trimmed is empty, so the claim prescribes an empty
keyword list; the code trims only one space per side and stores two empty
keywords. -/
theorem filter_keywords_counterexample :
    on_filter_text_changed "   " = ["", ""] ∧
    claimed_keywords "   " = [] ∧
    ¬ on_filter_text_changed "   " = claimed_keywords "   " := by
  refine ⟨by decide, by decide, by decide⟩

/-- C8 amended: after a filter-text change with input `t`, let `t'` be `t`
with at most one leading and one trailing space character removed; the
keyword list is empty when `t'` is empty and otherwise equals the fields of
`t'` split on single spaces (empty fields kept), each lowercased; every
stored keyword is unchanged by a further lowercase pass. -/
theorem filter_keywords_amended (t : String) :
    (on_filter_text_changed t
      = (if (gdTrimTrailingSpace (gdTrimLeadingSpace t)).isEmpty then []
         else (gdSplitChar (gdTrimTrailingSpace (gdTrimLeadingSpace t)) spaceChar).map
           gdToLower)) ∧
    ∀ k, k ∈ on_filter_text_changed t → gdToLower k = k := by
  refine ⟨rfl, ?_⟩
  intro k hk
  unfold on_filter_text_changed at hk
  by_cases he : (gdTrimTrailingSpace (gdTrimLeadingSpace t)).isEmpty
  · rw [if_pos he] at hk
    simp at hk
  · rw [if_neg he] at hk
    rcases List.mem_map.mp hk with ⟨x, _, hx⟩
    rw [← hx]
    exact gdToLower_idem x

/-- Witness for `filter_keywords_amended` at a concrete input. -/
theorem filter_keywords_amended_witness :
    (on_filter_text_changed " Foo BAR "
      = (if (gdTrimTrailingSpace (gdTrimLeadingSpace " Foo BAR ")).isEmpty then []
         else (gdSplitChar (gdTrimTrailingSpace (gdTrimLeadingSpace " Foo BAR "))
           spaceChar).map gdToLower)) ∧
    "foo" ∈ on_filter_text_changed " Foo BAR " ∧
    gdToLower "foo" = "foo" :=
  ⟨(filter_keywords_amended " Foo BAR ").1, by decide,
    (filter_keywords_amended " Foo BAR ").2 "foo" (by decide)⟩

/-! ## Forest machinery: extension, membership, pruning -/

theorem extF_refl (t : TTree) : ExtF t t := by
  induction t with
  | nil => exact .nil _
  | node d c s ihc ihs => exact .node ihc ihs

theorem extF_trans {t u v : TTree} (h1 : ExtF t u) (h2 : ExtF u v) : ExtF t v := by
  induction h1 generalizing v with
  | nil => exact .nil v
  | node hc hs ihc ihs =>
      cases h2 with
      | node hc' hs' => exact .node (ihc hc') (ihs hs')

theorem extF_appendSib (f t : TTree) : ExtF f (appendSib f t) := by
  induction f with
  | nil => exact .nil _
  | node d c s ihc ihs => exact .node (extF_refl c) ihs

theorem memData_extF {P : NData → Prop} {t t' : TTree} (hext : ExtF t t')
    (hmem : MemData P t) : MemData P t' := by
  induction hmem generalizing t' with
  | head hP => cases hext with | node hc hs => exact .head hP
  | child _ ih => cases hext with | node hc hs => exact .child (ih hc)
  | sib _ ih => cases hext with | node hc hs => exact .sib (ih hs)

theorem topMem_ne_nil {P : NData → TTree → Prop} {t : TTree} (h : TopMem P t) :
    t.isNil = false := by
  cases h <;> rfl

theorem memData_ne_nil {P : NData → Prop} {t : TTree} (h : MemData P t) :
    t.isNil = false := by
  cases h <;> rfl

theorem topMem_extF {P : NData → TTree → Prop}
    (hmono : ∀ d c c', ExtF c c' → P d c → P d c') {t t' : TTree} (hext : ExtF t t')
    (hmem : TopMem P t) : TopMem P t' := by
  induction hmem generalizing t' with
  | head hP => cases hext with | node hc hs => exact .head (hmono _ _ _ hc hP)
  | sib _ ih => cases hext with | node hc hs => exact .sib (ih hs)

theorem insertLeaf_extF (theme : Theme) (leaf : TTree) (segs : List String) (f : TTree) :
    ExtF f (insertLeaf theme leaf segs f).1 := by
  induction segs generalizing f with
  | nil => simp only [insertLeaf]; exact extF_appendSib f leaf
  | cons s rest ihseg =>
      induction f with
      | nil => exact .nil _
      | node d c sib ihc ihsib =>
          by_cases h : foldEq d.text s = true
          · simp only [insertLeaf, h, if_true]
            exact .node (ihseg c) (extF_refl sib)
          · simp only [insertLeaf, h, if_false]
            exact .node (extF_refl c) ihsib

theorem insertLeaf_anc (theme : Theme) (leaf : TTree) (segs : List String) (f : TTree) :
    ((insertLeaf theme leaf segs f).2).map gdToLower = segs.map gdToLower := by
  induction segs generalizing f with
  | nil => simp only [insertLeaf]
  | cons s rest ihseg =>
      induction f with
      | nil => simp only [insertLeaf]
      | node d c sib ihc ihsib =>
          by_cases h : foldEq d.text s = true
          · have htext : gdToLower d.text = gdToLower s := by
              have := h
              unfold foldEq at this
              exact eq_of_beq this
            simp only [insertLeaf, h, if_true, List.map_cons, htext, ihseg c]
          · simp only [insertLeaf, h, if_false]
            exact ihsib

theorem memData_mkChain {P : NData → Prop} (theme : Theme) {leaf : TTree}
    (hleaf : MemData P leaf) (s : String) (rest : List String) :
    MemData P (mkChain theme leaf s rest) := by
  induction rest generalizing s with
  | nil => exact .child hleaf
  | cons s2 rest2 ih => exact .child (ih s2)

theorem memData_appendSib {P : NData → Prop} {leaf : TTree} (f : TTree)
    (hleaf : MemData P leaf) : MemData P (appendSib f leaf) := by
  induction f with
  | nil => exact hleaf
  | node d c s ihc ihs => exact .sib ihs

theorem insertLeaf_memData {P : NData → Prop} (theme : Theme) {leaf : TTree}
    (hleaf : MemData P leaf) (segs : List String) (f : TTree) :
    MemData P (insertLeaf theme leaf segs f).1 := by
  induction segs generalizing f with
  | nil => simp only [insertLeaf]; exact memData_appendSib f hleaf
  | cons s rest ihseg =>
      induction f with
      | nil => simp only [insertLeaf]; exact memData_mkChain theme hleaf s rest
      | node d c sib ihc ihsib =>
          by_cases h : foldEq d.text s = true
          · simp only [insertLeaf, h, if_true]
            exact .child (ihseg c)
          · simp only [insertLeaf, h, if_false]
            exact .sib ihsib

theorem insertLeaf_head (theme : Theme) (leaf : TTree) (segs : List String)
    (d : NData) (c s : TTree) :
    ∃ c' s', (insertLeaf theme leaf segs (.node d c s)).1 = .node d c' s' := by
  cases segs with
  | nil => exact ⟨c, appendSib s leaf, by simp only [insertLeaf, appendSib]⟩
  | cons sg rest =>
      by_cases h : foldEq d.text sg = true
      · exact ⟨(insertLeaf theme leaf rest c).1, s, by simp [insertLeaf, h]⟩
      · exact ⟨c, (insertLeaf theme leaf (sg :: rest) s).1, by simp [insertLeaf, h]⟩

theorem extF_appendUnderFavorites (f leaf : TTree) : ExtF f (appendUnderFavorites f leaf) := by
  cases f with
  | nil => exact .nil _
  | node d c s => exact .node (extF_appendSib c leaf) (extF_refl s)

theorem processItem_extF (theme : Theme) (action_favorites : List String) (selection : String)
    (f : TTree) (item : MenuItem) :
    ExtF f (processItem theme action_favorites selection f item) := by
  unfold processItem
  by_cases h : action_favorites.contains item.spec.category = true
  · simp only [h, if_true]
    exact extF_trans (insertLeaf_extF theme _ _ f) (extF_appendUnderFavorites _ _)
  · simp only [h, if_false]
    exact insertLeaf_extF theme _ _ f

theorem foldl_processItem_extF (theme : Theme) (action_favorites : List String)
    (selection : String) (items : List MenuItem) (f : TTree) :
    ExtF f (items.foldl (processItem theme action_favorites selection) f) := by
  induction items generalizing f with
  | nil => exact extF_refl f
  | cons i rest ih =>
      exact extF_trans (processItem_extF theme action_favorites selection f i)
        (ih (processItem theme action_favorites selection f i))

/-! ## Pruning establishes the emptiness invariant -/

theorem noEmptyNodes_pruned (t : TTree) :
    noEmptyNodes (remove_empty_action_nodes t) = true := by
  induction t with
  | nil => rfl
  | node d c s ihc ihs =>
      simp only [remove_empty_action_nodes]
      by_cases h : ((remove_empty_action_nodes c).isNil && !d.hasHandler) = true
      · rw [if_pos h]
        exact ihs
      · rw [if_neg h]
        have hcond : (!(remove_empty_action_nodes c).isNil || d.hasHandler) = true := by
          revert h
          cases (remove_empty_action_nodes c).isNil <;> cases d.hasHandler <;> simp
        simp only [noEmptyNodes, hcond, ihc, ihs, Bool.and_self]

theorem allData_pruned (p : NData → Bool) (t : TTree)
    (h : allData p t = true) : allData p (remove_empty_action_nodes t) = true := by
  induction t with
  | nil => rfl
  | node d c s ihc ihs =>
      simp only [allData, Bool.and_eq_true] at h
      obtain ⟨⟨hd, hc⟩, hs⟩ := h
      simp only [remove_empty_action_nodes]
      by_cases hcond : ((remove_empty_action_nodes c).isNil && !d.hasHandler) = true
      · rw [if_pos hcond]
        exact ihs hs
      · rw [if_neg hcond]
        simp only [allData, hd, ihc hc, ihs hs, Bool.and_self]

theorem prunedInvariant_of (t : TTree)
    (h1 : noEmptyNodes t = true)
    (h2 : allData handlerHasItem t = true) :
    prunedInvariant t = true := by
  induction t with
  | nil => rfl
  | node d c s ihc ihs =>
      simp only [noEmptyNodes, Bool.and_eq_true] at h1
      simp only [allData, Bool.and_eq_true] at h2
      obtain ⟨⟨hcond, hc1⟩, hs1⟩ := h1
      obtain ⟨⟨hd, hc2⟩, hs2⟩ := h2
      simp only [prunedInvariant, Bool.and_eq_true]
      refine ⟨⟨?_, ihc hc1 hc2⟩, ihs hs1 hs2⟩
      revert hcond hd
      unfold handlerHasItem
      cases c.isNil <;> cases d.hasHandler <;> cases hi : d.item.isSome <;> simp

/-! ## Construction preserves the handler-has-item invariant -/

theorem allData_appendSib (p : NData → Bool) (f t : TTree)
    (hf : allData p f = true) (ht : allData p t = true) :
    allData p (appendSib f t) = true := by
  induction f with
  | nil => exact ht
  | node d c s ihc ihs =>
      simp only [allData, Bool.and_eq_true] at hf
      obtain ⟨⟨hd, hc⟩, hs⟩ := hf
      simp only [appendSib, allData, hd, hc, ihs hs, Bool.and_self]

theorem allData_mkChain (p : NData → Bool) (theme : Theme) {leaf : TTree}
    (hleaf : allData p leaf = true)
    (hcat : ∀ sg, p (categoryNodeData theme sg) = true) (s : String) (rest : List String) :
    allData p (mkChain theme leaf s rest) = true := by
  induction rest generalizing s with
  | nil => simp [mkChain, allData, hcat, hleaf]
  | cons s2 r2 ih => simp [mkChain, allData, hcat, ih]

theorem allData_insertLeaf (p : NData → Bool) (theme : Theme) {leaf : TTree}
    (hleaf : allData p leaf = true)
    (hcat : ∀ sg, p (categoryNodeData theme sg) = true)
    (segs : List String) (f : TTree) (hf : allData p f = true) :
    allData p (insertLeaf theme leaf segs f).1 = true := by
  induction segs generalizing f with
  | nil =>
      simp only [insertLeaf]
      exact allData_appendSib p f leaf hf hleaf
  | cons s rest ihseg =>
      induction f with
      | nil =>
          simp only [insertLeaf]
          exact allData_mkChain p theme hleaf hcat s rest
      | node d c sib ihc ihsib =>
          simp only [allData, Bool.and_eq_true] at hf
          obtain ⟨⟨hd, hc⟩, hs⟩ := hf
          by_cases h : foldEq d.text s = true
          · simp only [insertLeaf, h, if_true]
            simp only [allData, hd, ihseg c hc, hs, Bool.and_self]
          · simp only [insertLeaf, h, if_false]
            simp only [allData, hd, hc, Bool.and_self, Bool.true_and]
            exact ihsib (by simp [allData, hd, hc, hs])

theorem allData_appendUnderFavorites (p : NData → Bool) (f leaf : TTree)
    (hf : allData p f = true) (hleaf : allData p leaf = true) :
    allData p (appendUnderFavorites f leaf) = true := by
  cases f with
  | nil => rfl
  | node d c s =>
      simp only [allData, Bool.and_eq_true] at hf
      obtain ⟨⟨hd, hc⟩, hs⟩ := hf
      simp only [appendUnderFavorites, allData, hd, allData_appendSib p c leaf hc hleaf, hs,
        Bool.and_self]

theorem handlerHasItem_make_item (theme : Theme) (mi : MenuItem) (t : String) :
    handlerHasItem (make_item theme mi t) = true := by
  unfold handlerHasItem make_item
  cases mi.hasHandler <;> simp

theorem handlerHasItem_of_item_some (d : NData) (mi : MenuItem) (h : d.item = some mi) :
    handlerHasItem d = true := by
  unfold handlerHasItem
  rw [h]
  cases d.hasHandler <;> rfl

theorem allData_single (p : NData → Bool) (d : NData) (h : p d = true) :
    allData p (TTree.node d .nil .nil) = true := by
  simp [allData, h]

theorem allData_processItem (theme : Theme) (action_favorites : List String)
    (selection : String) (f : TTree) (item : MenuItem)
    (hf : allData handlerHasItem f = true) :
    allData handlerHasItem (processItem theme action_favorites selection f item) = true := by
  unfold processItem
  have hcat : ∀ sg, handlerHasItem (categoryNodeData theme sg) = true := fun sg => rfl
  by_cases hfav : action_favorites.contains item.spec.category = true
  · simp only [hfav, if_true]
    refine allData_appendUnderFavorites _ _ _ ?_ ?_
    · exact allData_insertLeaf _ theme
        (allData_single _ _
          (handlerHasItem_of_item_some _ item (by simp [mainLeafData, make_item])))
        hcat _ f hf
    · exact allData_single _ _ (handlerHasItem_of_item_some _ item (by simp [make_item]))
  · have hfav' : action_favorites.contains item.spec.category = false := by
      simpa using hfav
    simp only [hfav', Bool.false_eq_true, if_false]
    exact allData_insertLeaf _ theme
      (allData_single _ _
        (handlerHasItem_of_item_some _ item (by simp [mainLeafData, make_item])))
      hcat _ f hf

theorem allData_buildActionForest (theme : Theme) (action_favorites : List String)
    (selection : String) (items : List MenuItem) :
    allData handlerHasItem (buildActionForest theme action_favorites selection items) = true := by
  unfold buildActionForest
  have h0 : ∀ f0 : TTree, allData handlerHasItem f0 = true →
      allData handlerHasItem
        (items.foldl (processItem theme action_favorites selection) f0) = true := by
    induction items with
    | nil => intro f0 h; exact h
    | cons i rest ih =>
        intro f0 h
        exact ih _ (allData_processItem theme action_favorites selection f0 i h)
  refine h0 _ ?_
  by_cases h : action_favorites.isEmpty = true
  · rw [if_pos h]
    rfl
  · rw [if_neg h]
    rfl

/-- C1: for every theme, persisted favorites list, remembered selection and
filtered item list, the generated (post-pruning) tree contains no node with
zero children and no attached action: every node either has at least one
child or is a leaf carrying both the `"handler"` and the `"item"`
metadata. -/
theorem generated_tree_pruned_invariant (theme : Theme) (action_favorites : List String)
    (selection : String) (items : List MenuItem) :
    prunedInvariant (generate_filtered_actions theme action_favorites selection items)
      = true := by
  unfold generate_filtered_actions
  exact prunedInvariant_of _ (noEmptyNodes_pruned _)
    (allData_pruned _ _ (allData_buildActionForest theme action_favorites selection items))

/-! ## Membership survives pruning and later insertions -/

theorem memData_pruned {P : NData → Prop} (hP : ∀ d, P d → d.hasHandler = true)
    {t : TTree} (h : MemData P t) : MemData P (remove_empty_action_nodes t) := by
  induction t with
  | nil => cases h
  | node d c s ihc ihs =>
      simp only [remove_empty_action_nodes]
      cases h with
      | head hd =>
          rw [if_neg (by simp [hP d hd])]
          exact .head hd
      | child hm =>
          have hmem := ihc hm
          rw [if_neg (by simp [memData_ne_nil hmem])]
          exact .child hmem
      | sib hm =>
          by_cases hcond : ((remove_empty_action_nodes c).isNil && !d.hasHandler) = true
          · rw [if_pos hcond]
            exact ihs hm
          · rw [if_neg hcond]
            exact .sib (ihs hm)

theorem processItem_memData {P : NData → Prop} (theme : Theme)
    (action_favorites : List String) (selection : String) (f : TTree) (i : MenuItem)
    (hP : ∀ b : Bool, P (mainLeafData theme b selection i)) :
    MemData P (processItem theme action_favorites selection f i) := by
  unfold processItem
  by_cases hfav : action_favorites.contains i.spec.category = true
  · simp only [hfav, if_true]
    exact memData_extF (extF_appendUnderFavorites _ _)
      (insertLeaf_memData theme (.head (hP true)) _ f)
  · have hfav' : action_favorites.contains i.spec.category = false := by simpa using hfav
    simp only [hfav', Bool.false_eq_true, if_false]
    exact insertLeaf_memData theme (.head (hP false)) _ f

theorem buildActionForest_memData {P : NData → Prop} (theme : Theme)
    (action_favorites : List String) (selection : String) (items : List MenuItem)
    (i : MenuItem) (hmem : i ∈ items)
    (hP : ∀ b : Bool, P (mainLeafData theme b selection i)) :
    MemData P (buildActionForest theme action_favorites selection items) := by
  obtain ⟨l1, l2, rfl⟩ := List.append_of_mem hmem
  unfold buildActionForest
  rw [List.foldl_append]
  simp only [List.foldl_cons]
  exact memData_extF (foldl_processItem_extF theme action_favorites selection l2 _)
    (processItem_memData theme action_favorites selection _ i hP)

/-- C5: when an action whose category path equals the remembered selection
survives the filter (is among the loaded items), its leaf is marked selected
already in the constructed tree, before any pruning — the check happens
while the leaf is attached — and, if the action has a valid handler, the
selected leaf is still present in the final pruned tree. -/
theorem selection_marked_during_construction (theme : Theme)
    (action_favorites : List String) (selection : String) (items : List MenuItem)
    (i : MenuItem) (hmem : i ∈ items) (hsel : i.spec.category = selection) :
    MemData (fun d => d.item = some i ∧ d.selected = true)
      (buildActionForest theme action_favorites selection items) ∧
    (i.hasHandler = true →
      MemData (fun d => d.item = some i ∧ d.selected = true ∧ d.hasHandler = true)
        (generate_filtered_actions theme action_favorites selection items)) := by
  have hbeq : (i.spec.category == selection) = true := by
    rw [hsel]
    exact beq_self_eq_true selection
  constructor
  · exact buildActionForest_memData theme action_favorites selection items i hmem
      fun b => ⟨by simp [mainLeafData, make_item], hbeq⟩
  · intro hh
    unfold generate_filtered_actions
    exact memData_pruned (fun d hd => hd.2.2)
      (buildActionForest_memData theme action_favorites selection items i hmem
        fun b => ⟨by simp [mainLeafData, make_item], hbeq, hh⟩)

/-- Witness for `selection_marked_during_construction` at the specification
example with selection `"Math/Add"`. -/
theorem selection_marked_during_construction_witness :
    (itemAdd ∈ [itemAdd, itemSubtract] ∧ itemAdd.spec.category = "Math/Add" ∧
      itemAdd.hasHandler = true) ∧
    MemData (fun d => d.item = some itemAdd ∧ d.selected = true)
      (buildActionForest themeNone [] "Math/Add" [itemAdd, itemSubtract]) ∧
    MemData (fun d => d.item = some itemAdd ∧ d.selected = true ∧ d.hasHandler = true)
      (generate_filtered_actions themeNone [] "Math/Add" [itemAdd, itemSubtract]) :=
  ⟨⟨by simp, by decide, by decide⟩,
    (selection_marked_during_construction themeNone [] "Math/Add" [itemAdd, itemSubtract]
      itemAdd (by simp) (by decide)).1,
    (selection_marked_during_construction themeNone [] "Math/Add" [itemAdd, itemSubtract]
      itemAdd (by simp) (by decide)).2 (by decide)⟩

/-! ## Favorites leaves -/

theorem topMemData_appendSib_single {Q : NData → Prop} (f : TTree) (D : NData)
    (hD : Q D) : TopMem (fun d _ => Q d) (appendSib f (.node D .nil .nil)) := by
  induction f with
  | nil => exact .head hD
  | node d c s _ihc ihs => exact .sib ihs

theorem topMemData_pruned {Q : NData → Prop} (hQ : ∀ d, Q d → d.hasHandler = true)
    {t : TTree} (h : TopMem (fun d _ => Q d) t) :
    TopMem (fun d _ => Q d) (remove_empty_action_nodes t) := by
  induction t with
  | nil => cases h
  | node d c s _ihc ihs =>
      simp only [remove_empty_action_nodes]
      cases h with
      | head hd =>
          rw [if_neg (by simp [hQ d hd])]
          exact .head hd
      | sib hm =>
          by_cases hcond : ((remove_empty_action_nodes c).isNil && !d.hasHandler) = true
          · rw [if_pos hcond]
            exact ihs hm
          · rw [if_neg hcond]
            exact .sib (ihs hm)

theorem topMemFavorites_pruned {Q : NData → Prop} (hQ : ∀ d, Q d → d.hasHandler = true)
    {t : TTree}
    (h : TopMem (fun d c => d.text = "Favorites" ∧ TopMem (fun d' _ => Q d') c) t) :
    TopMem (fun d c => d.text = "Favorites" ∧ TopMem (fun d' _ => Q d') c)
      (remove_empty_action_nodes t) := by
  induction t with
  | nil => cases h
  | node d c s _ihc ihs =>
      simp only [remove_empty_action_nodes]
      cases h with
      | head hd =>
          obtain ⟨ht, hin⟩ := hd
          have hin' := topMemData_pruned hQ hin
          rw [if_neg (by simp [topMem_ne_nil hin'])]
          exact .head ⟨ht, hin'⟩
      | sib hm =>
          by_cases hcond : ((remove_empty_action_nodes c).isNil && !d.hasHandler) = true
          · rw [if_pos hcond]
            exact ihs hm
          · rw [if_neg hcond]
            exact .sib (ihs hm)

theorem processItem_head (theme : Theme) (action_favorites : List String)
    (selection : String) (d : NData) (c s : TTree) (i : MenuItem) :
    ∃ c' s', processItem theme action_favorites selection (.node d c s) i = .node d c' s' := by
  unfold processItem
  obtain ⟨c1, s1, h1⟩ := insertLeaf_head theme
    (.node (mainLeafData theme (action_favorites.contains i.spec.category) selection i)
      .nil .nil)
    ((gdSplitChar i.spec.category slashChar).dropLast) d c s
  by_cases hfav : action_favorites.contains i.spec.category = true
  · simp only [hfav] at h1 ⊢
    simp only [if_true]
    rw [h1]
    exact ⟨_, _, rfl⟩
  · have hfav' : action_favorites.contains i.spec.category = false := by simpa using hfav
    simp only [hfav'] at h1 ⊢
    simp only [Bool.false_eq_true, if_false]
    exact ⟨c1, s1, h1⟩

theorem foldl_processItem_head (theme : Theme) (action_favorites : List String)
    (selection : String) (items : List MenuItem) (d : NData) (c s : TTree) :
    ∃ c' s', List.foldl (processItem theme action_favorites selection) (.node d c s) items
      = .node d c' s' := by
  induction items generalizing c s with
  | nil => exact ⟨c, s, rfl⟩
  | cons i rest ih =>
      simp only [List.foldl_cons]
      obtain ⟨c1, s1, h1⟩ := processItem_head theme action_favorites selection d c s i
      rw [h1]
      exact ih c1 s1

theorem processItem_favorite_topMem (theme : Theme) (action_favorites : List String)
    (selection : String) (cF sF : TTree) (i : MenuItem)
    (hfav : action_favorites.contains i.spec.category = true)
    (hh : i.hasHandler = true) :
    ∃ anc : List String,
      anc.map gdToLower = ((gdSplitChar i.spec.category slashChar).dropLast).map gdToLower ∧
      TopMem (fun d c => d.text = "Favorites" ∧
          TopMem (fun d' _ => d'.item = some i ∧
            d'.text = create_favorite_item_text anc i ∧ d'.hasHandler = true) c)
        (processItem theme action_favorites selection
          (.node favoritesNodeData cF sF) i) := by
  unfold processItem
  simp only [hfav, if_true]
  obtain ⟨c', s', heq⟩ := insertLeaf_head theme
    (.node (mainLeafData theme true selection i) .nil .nil)
    ((gdSplitChar i.spec.category slashChar).dropLast) favoritesNodeData cF sF
  refine ⟨(insertLeaf theme (.node (mainLeafData theme true selection i) .nil .nil)
      ((gdSplitChar i.spec.category slashChar).dropLast)
      (.node favoritesNodeData cF sF)).2,
    insertLeaf_anc theme _ _ _, ?_⟩
  rw [heq]
  simp only [appendUnderFavorites]
  exact .head ⟨rfl, topMemData_appendSib_single c' _
    ⟨by simp [make_item], by simp [make_item], by simp [make_item, hh]⟩⟩

/-- C3 counterexample: at the specification's own example (registry
`Math/Add`, `Math/Subtract`; favorites `Math/Add`), the leaf under the
`"Favorites"` node has display text `"<Math> Add"` — not the example's
`" <Math> Add"` (no leading space is produced) and not a plain join of the
ancestor path with the display text (`"Math Add"`).  Moreover the claim
fails for favorited actions without a valid handler: their synthetic leaf is
pruned away, so no `"Favorites"` node remains at all. -/
theorem favorites_leaf_text_counterexample :
    ((generate_filtered_actions themeNone ["Math/Add"] "" [itemAdd, itemSubtract]).headData).map
        NData.text = some "Favorites" ∧
    ((generate_filtered_actions themeNone ["Math/Add"] ""
        [itemAdd, itemSubtract]).headChild.headData).map NData.text = some "<Math> Add" ∧
    some "<Math> Add" ≠ some " <Math> Add" ∧
    some "<Math> Add" ≠ some "Math Add" ∧
    generate_filtered_actions themeNone ["Solo"] "" [itemSolo] = .nil := by
  exact ⟨by decide, by decide, by decide, by decide, by decide⟩

/-- C3 amended: for every action with a valid handler that survives the
filter and whose category path is in the persisted favorites set, the
generated (pruned) tree contains, under the top-level `"Favorites"` node, a
synthetic leaf carrying the action's `"item"` metadata whose display text is
`"<" ++ P ++ "> " ++ text`, where `P` joins the texts of the leaf's ancestor
category chain with `"/"`; those ancestor texts equal the action's own
category prefix segments up to letter case. -/
theorem favorites_leaf_amended (theme : Theme) (action_favorites : List String)
    (selection : String) (items : List MenuItem) (i : MenuItem)
    (hmem : i ∈ items) (hfav : action_favorites.contains i.spec.category = true)
    (hh : i.hasHandler = true) :
    ∃ anc : List String,
      anc.map gdToLower = ((gdSplitChar i.spec.category slashChar).dropLast).map gdToLower ∧
      TopMem (fun d c => d.text = "Favorites" ∧
          TopMem (fun d' _ => d'.item = some i ∧
            d'.text = create_favorite_item_text anc i ∧ d'.hasHandler = true) c)
        (generate_filtered_actions theme action_favorites selection items) := by
  have hne : action_favorites.isEmpty = false := by
    cases action_favorites with
    | nil => exact Bool.noConfusion hfav
    | cons x xs => rfl
  obtain ⟨l1, l2, rfl⟩ := List.append_of_mem hmem
  unfold generate_filtered_actions buildActionForest
  rw [if_neg (by simp [hne]), List.foldl_append]
  simp only [List.foldl_cons]
  obtain ⟨cF, sF, hF⟩ := foldl_processItem_head theme action_favorites selection l1
    favoritesNodeData .nil .nil
  rw [hF]
  obtain ⟨anc, hanc, hmem2⟩ := processItem_favorite_topMem theme action_favorites selection
    cF sF i hfav hh
  refine ⟨anc, hanc, ?_⟩
  refine topMemFavorites_pruned (fun d hd => hd.2.2) ?_
  exact topMem_extF
    (fun d c c' hext hp => ⟨hp.1, topMem_extF (fun _ _ _ _ h => h) hext hp.2⟩)
    (foldl_processItem_extF theme action_favorites selection l2 _)
    hmem2

/-- Witness for `favorites_leaf_amended` at the specification example. -/
theorem favorites_leaf_amended_witness :
    (itemAdd ∈ [itemAdd, itemSubtract] ∧
      (["Math/Add"] : List String).contains itemAdd.spec.category = true ∧
      itemAdd.hasHandler = true) ∧
    (∃ anc : List String,
      anc.map gdToLower
        = ((gdSplitChar itemAdd.spec.category slashChar).dropLast).map gdToLower ∧
      TopMem (fun d c => d.text = "Favorites" ∧
          TopMem (fun d' _ => d'.item = some itemAdd ∧
            d'.text = create_favorite_item_text anc itemAdd ∧ d'.hasHandler = true) c)
        (generate_filtered_actions themeNone ["Math/Add"] "" [itemAdd, itemSubtract])) :=
  ⟨⟨by simp, by decide, by decide⟩,
    favorites_leaf_amended themeNone ["Math/Add"] "" [itemAdd, itemSubtract] itemAdd
      (by simp) (by decide) (by decide)⟩

/-! ## Shared category prefixes: the walk is deterministic and stable

`descend` recomputes the case-insensitive first-match walk on a finished
tree.  The lemmas below show that inserting an action places its leaf in
the chain `descend` finds for its category prefix, that later insertions
never move that chain (children are only appended, texts never change), and
that no sibling chain ever acquires two category nodes with the same folded
text.  Together they settle C2 for arbitrary item lists and prefixes of any
length. -/

theorem foldEq_self (a : String) : foldEq a a = true := by
  simp [foldEq]

theorem contains_true_iff (l : List String) (x : String) : l.contains x = true ↔ x ∈ l :=
  List.elem_iff

theorem contains_false_iff (l : List String) (x : String) : l.contains x = false ↔ x ∉ l := by
  constructor
  · intro h hmem
    rw [(contains_true_iff l x).mpr hmem] at h
    cases h
  · intro h
    cases hc : l.contains x
    · rfl
    · exact absurd ((contains_true_iff l x).mp hc) h

theorem catCond_iff (d : NData) (l : List String) :
    ((!(d.item.isNone && l.contains (gdToLower d.text))) = true)
      ↔ (d.item.isNone = true → gdToLower d.text ∉ l) := by
  cases hni : d.item.isNone
  · simp
  · cases hc : l.contains (gdToLower d.text)
    · simp [(contains_false_iff _ _).mp hc]
    · simp [(contains_true_iff _ _).mp hc]

theorem descend_congr (f : TTree) (segs1 segs2 : List String)
    (h : segs1.map gdToLower = segs2.map gdToLower) :
    descend segs1 f = descend segs2 f := by
  induction f generalizing segs1 segs2 with
  | nil =>
      cases segs1 with
      | nil => cases segs2 with
          | nil => rfl
          | cons => simp at h
      | cons a r => cases segs2 with
          | nil => simp at h
          | cons => rfl
  | node d c sib ihc ihsib =>
      cases segs1 with
      | nil => cases segs2 with
          | nil => rfl
          | cons => simp at h
      | cons s1 r1 =>
          cases segs2 with
          | nil => simp at h
          | cons s2 r2 =>
              simp only [List.map_cons, List.cons.injEq] at h
              obtain ⟨hs, hr⟩ := h
              have hcond : foldEq d.text s1 = foldEq d.text s2 := by
                unfold foldEq
                rw [hs]
              by_cases hm : foldEq d.text s2 = true
              · simp only [descend, hcond, hm, if_true]
                exact ihc r1 r2 hr
              · simp only [descend, hcond, hm, Bool.false_eq_true, if_false]
                exact ihsib (s1 :: r1) (s2 :: r2)
                  (by simp only [List.map_cons, hs, hr])

theorem descend_mkChain (theme : Theme) (L : NData) (s : String) (rest : List String) :
    ∃ chain, descend (s :: rest) (mkChain theme (.node L .nil .nil) s rest) = some chain ∧
      TopMem (fun d _ => d = L) chain := by
  induction rest generalizing s with
  | nil =>
      refine ⟨.node L .nil .nil, ?_, .head rfl⟩
      simp only [mkChain, descend]
      rw [show foldEq (categoryNodeData theme s).text s = true from foldEq_self s]
      rfl
  | cons s2 r2 ih =>
      obtain ⟨chain, hd, hm⟩ := ih s2
      refine ⟨chain, ?_, hm⟩
      simp only [mkChain, descend]
      rw [show foldEq (categoryNodeData theme s).text s = true from foldEq_self s]
      simpa only [mkChain] using hd

theorem insertLeaf_descend_self (theme : Theme) (L : NData) (segs : List String) (f : TTree) :
    ∃ chain, descend segs (insertLeaf theme (.node L .nil .nil) segs f).1 = some chain ∧
      TopMem (fun d _ => d = L) chain := by
  induction f generalizing segs with
  | nil =>
      cases segs with
      | nil =>
          refine ⟨.node L .nil .nil, ?_, .head rfl⟩
          simp [insertLeaf, appendSib, descend]
      | cons s rest =>
          simp only [insertLeaf]
          exact descend_mkChain theme L s rest
  | node d c sib ihc ihsib =>
      cases segs with
      | nil =>
          refine ⟨appendSib (.node d c sib) (.node L .nil .nil), ?_, ?_⟩
          · simp only [insertLeaf, descend]
          · exact topMemData_appendSib_single (.node d c sib) L rfl
      | cons s rest =>
          by_cases hm : foldEq d.text s = true
          · simp only [insertLeaf, hm, if_true]
            obtain ⟨chain, h1, m1⟩ := ihc rest
            exact ⟨chain, by simp [descend, hm, h1], m1⟩
          · simp only [insertLeaf, hm, Bool.false_eq_true, if_false]
            obtain ⟨chain, h1, m1⟩ := ihsib (s :: rest)
            exact ⟨chain, by simp [descend, hm, h1], m1⟩

theorem insertLeaf_descend_stable {P : NData → Prop} (theme : Theme) (L' : NData)
    (f : TTree) (segs segs' : List String) (chain : TTree)
    (hd : descend segs f = some chain) (hm : TopMem (fun d _ => P d) chain) :
    ∃ chain', descend segs (insertLeaf theme (.node L' .nil .nil) segs' f).1 = some chain' ∧
      TopMem (fun d _ => P d) chain' := by
  induction f generalizing segs segs' chain with
  | nil =>
      cases segs with
      | nil =>
          simp only [descend, Option.some.injEq] at hd
          subst hd
          cases hm
      | cons s rest => simp [descend] at hd
  | node d c sib ihc ihsib =>
      cases segs with
      | nil =>
          simp only [descend, Option.some.injEq] at hd
          subst hd
          refine ⟨(insertLeaf theme (.node L' .nil .nil) segs' (.node d c sib)).1, ?_,
            topMem_extF (fun _ _ _ _ h => h) (insertLeaf_extF theme _ segs' _) hm⟩
          simp only [descend]
      | cons s rest =>
          by_cases hds : foldEq d.text s = true
          · have hd' : descend rest c = some chain := by simpa [descend, hds] using hd
            cases segs' with
            | nil =>
                refine ⟨chain, ?_, hm⟩
                simp [insertLeaf, appendSib, descend, hds, hd']
            | cons s' rest' =>
                by_cases hds' : foldEq d.text s' = true
                · simp only [insertLeaf, hds', if_true]
                  obtain ⟨chain', h1, h2⟩ := ihc rest rest' chain hd' hm
                  exact ⟨chain', by simp [descend, hds, h1], h2⟩
                · simp only [insertLeaf, hds', Bool.false_eq_true, if_false]
                  exact ⟨chain, by simp [descend, hds, hd'], hm⟩
          · have hd' : descend (s :: rest) sib = some chain := by
              simpa [descend, hds] using hd
            cases segs' with
            | nil =>
                obtain ⟨chain', h1, h2⟩ := ihsib (s :: rest) [] chain hd' hm
                refine ⟨chain', ?_, h2⟩
                simp only [insertLeaf] at h1 ⊢
                simp only [appendSib, descend, hds, Bool.false_eq_true, if_false]
                exact h1
            | cons s' rest' =>
                by_cases hds' : foldEq d.text s' = true
                · simp only [insertLeaf, hds', if_true]
                  exact ⟨chain, by simp [descend, hds, hd'], hm⟩
                · simp only [insertLeaf, hds', Bool.false_eq_true, if_false]
                  obtain ⟨chain', h1, h2⟩ := ihsib (s :: rest) (s' :: rest') chain hd' hm
                  exact ⟨chain', by simp [descend, hds, h1], h2⟩

theorem appendUnderFavorites_descend_stable {P : NData → Prop} (theme : Theme)
    (f : TTree) (L' : NData) (segs : List String) (chain : TTree)
    (hd : descend segs f = some chain) (hm : TopMem (fun d _ => P d) chain) :
    ∃ chain', descend segs (appendUnderFavorites f (.node L' .nil .nil)) = some chain' ∧
      TopMem (fun d _ => P d) chain' := by
  cases f with
  | nil =>
      cases segs with
      | nil =>
          simp only [descend, Option.some.injEq] at hd
          subst hd
          cases hm
      | cons s rest => simp [descend] at hd
  | node d c s =>
      simp only [appendUnderFavorites]
      cases segs with
      | nil =>
          simp only [descend, Option.some.injEq] at hd
          subst hd
          refine ⟨_, rfl, ?_⟩
          cases hm with
          | head h => exact .head h
          | sib h => exact .sib h
      | cons sg rest =>
          by_cases hds : foldEq d.text sg = true
          · have hd' : descend rest c = some chain := by simpa [descend, hds] using hd
            obtain ⟨chain', h1, h2⟩ :=
              insertLeaf_descend_stable theme L' c rest [] chain hd' hm
            refine ⟨chain', ?_, h2⟩
            simp only [insertLeaf] at h1
            simp only [descend, hds, if_true]
            exact h1
          · have hd' : descend (sg :: rest) s = some chain := by
              simpa [descend, hds] using hd
            exact ⟨chain, by simp [descend, hds, hd'], hm⟩

theorem processItem_descend_stable {P : NData → Prop} (theme : Theme)
    (action_favorites : List String) (selection : String) (f : TTree) (j : MenuItem)
    (segs : List String) (chain : TTree)
    (hd : descend segs f = some chain) (hm : TopMem (fun d _ => P d) chain) :
    ∃ chain', descend segs (processItem theme action_favorites selection f j)
        = some chain' ∧
      TopMem (fun d _ => P d) chain' := by
  unfold processItem
  by_cases hfav : action_favorites.contains j.spec.category = true
  · simp only [hfav, if_true]
    obtain ⟨c1, h1, m1⟩ := insertLeaf_descend_stable theme _ f segs _ chain hd hm
    exact appendUnderFavorites_descend_stable theme _ _ segs c1 h1 m1
  · have hfav' : action_favorites.contains j.spec.category = false := by simpa using hfav
    simp only [hfav', Bool.false_eq_true, if_false]
    exact insertLeaf_descend_stable theme _ f segs _ chain hd hm

theorem foldl_descend_stable {P : NData → Prop} (theme : Theme)
    (action_favorites : List String) (selection : String) (items : List MenuItem)
    (f : TTree) (segs : List String) (chain : TTree)
    (hd : descend segs f = some chain) (hm : TopMem (fun d _ => P d) chain) :
    ∃ chain', descend segs (items.foldl (processItem theme action_favorites selection) f)
        = some chain' ∧
      TopMem (fun d _ => P d) chain' := by
  induction items generalizing f chain with
  | nil => exact ⟨chain, hd, hm⟩
  | cons j rest ih =>
      simp only [List.foldl_cons]
      obtain ⟨c1, h1, m1⟩ :=
        processItem_descend_stable theme action_favorites selection f j segs chain hd hm
      exact ih _ _ h1 m1

theorem processItem_descend_self (theme : Theme) (action_favorites : List String)
    (selection : String) (f : TTree) (i : MenuItem) :
    ∃ chain, descend ((gdSplitChar i.spec.category slashChar).dropLast)
        (processItem theme action_favorites selection f i) = some chain ∧
      TopMem (fun d _ => d = mainLeafData theme
          (action_favorites.contains i.spec.category) selection i) chain := by
  unfold processItem
  by_cases hfav : action_favorites.contains i.spec.category = true
  · simp only [hfav, if_true]
    obtain ⟨chain, h1, m1⟩ := insertLeaf_descend_self theme
      (mainLeafData theme true selection i)
      ((gdSplitChar i.spec.category slashChar).dropLast) f
    exact appendUnderFavorites_descend_stable theme _ _ _ chain h1 m1
  · have hfav' : action_favorites.contains i.spec.category = false := by simpa using hfav
    simp only [hfav', Bool.false_eq_true, if_false]
    exact insertLeaf_descend_self theme (mainLeafData theme false selection i)
      ((gdSplitChar i.spec.category slashChar).dropLast) f

theorem buildActionForest_descend (theme : Theme) (action_favorites : List String)
    (selection : String) (items : List MenuItem) (i : MenuItem) (hmem : i ∈ items) :
    ∃ chain, descend ((gdSplitChar i.spec.category slashChar).dropLast)
        (buildActionForest theme action_favorites selection items) = some chain ∧
      TopMem (fun d _ => d = mainLeafData theme
          (action_favorites.contains i.spec.category) selection i) chain := by
  obtain ⟨l1, l2, rfl⟩ := List.append_of_mem hmem
  unfold buildActionForest
  rw [List.foldl_append]
  simp only [List.foldl_cons]
  obtain ⟨chain, h1, m1⟩ := processItem_descend_self theme action_favorites selection
    (List.foldl (processItem theme action_favorites selection)
      (if action_favorites.isEmpty then TTree.nil
        else TTree.node favoritesNodeData TTree.nil TTree.nil) l1) i
  exact foldl_descend_stable theme action_favorites selection l2 _ _ chain h1 m1

/-! ## Shared category prefixes: no duplicate category nodes -/

theorem catTexts_appendSib (f : TTree) (L : NData) (hL : L.item.isSome = true) :
    catTexts (appendSib f (.node L .nil .nil)) = catTexts f := by
  induction f with
  | nil =>
      cases hi : L.item with
      | none => rw [hi] at hL; cases hL
      | some v => simp [appendSib, catTexts, hi]
  | node d c s _ihc ihs =>
      simp only [appendSib, catTexts, ihs]

theorem catDistinct_appendSib (f : TTree) (L : NData) (hL : L.item.isSome = true)
    (hf : catDistinct f = true) :
    catDistinct (appendSib f (.node L .nil .nil)) = true := by
  induction f with
  | nil => simp [appendSib, catDistinct, catTexts]
  | node d c s _ihc ihs =>
      simp only [catDistinct, Bool.and_eq_true] at hf
      obtain ⟨⟨hd, hc⟩, hs⟩ := hf
      simp only [appendSib, catDistinct, Bool.and_eq_true]
      refine ⟨⟨?_, hc⟩, ihs hs⟩
      rw [catTexts_appendSib s L hL]
      exact hd

theorem catTexts_mkChain (theme : Theme) (leaf : TTree) (s : String) (rest : List String) :
    catTexts (mkChain theme leaf s rest) = [gdToLower s] := by
  cases rest <;> simp [mkChain, catTexts, categoryNodeData]

theorem catDistinct_mkChain (theme : Theme) (L : NData) (s : String) (rest : List String) :
    catDistinct (mkChain theme (.node L .nil .nil) s rest) = true := by
  induction rest generalizing s with
  | nil => simp [mkChain, catDistinct, catTexts]
  | cons s2 r2 ih => simp [mkChain, catDistinct, catTexts, ih s2]

theorem catDistinct_insertLeaf (theme : Theme) (L : NData) (hL : L.item.isSome = true)
    (segs : List String) (f : TTree) (hf : catDistinct f = true) :
    catDistinct (insertLeaf theme (.node L .nil .nil) segs f).1 = true ∧
    (catTexts (insertLeaf theme (.node L .nil .nil) segs f).1 = catTexts f ∨
     ∃ s rest, segs = s :: rest ∧
       catTexts (insertLeaf theme (.node L .nil .nil) segs f).1
         = catTexts f ++ [gdToLower s]) := by
  induction f generalizing segs with
  | nil =>
      cases segs with
      | nil =>
          constructor
          · simp only [insertLeaf]
            exact catDistinct_appendSib .nil L hL rfl
          · left
            simp only [insertLeaf]
            exact catTexts_appendSib .nil L hL
      | cons s rest =>
          constructor
          · simp only [insertLeaf]
            exact catDistinct_mkChain theme L s rest
          · right
            refine ⟨s, rest, rfl, ?_⟩
            simp only [insertLeaf]
            rw [catTexts_mkChain]
            rfl
  | node d c sib ihc ihsib =>
      have hf' := hf
      simp only [catDistinct, Bool.and_eq_true] at hf'
      obtain ⟨⟨hdcond, hc⟩, hs⟩ := hf'
      cases segs with
      | nil =>
          constructor
          · simp only [insertLeaf]
            exact catDistinct_appendSib _ L hL hf
          · left
            simp only [insertLeaf]
            exact catTexts_appendSib _ L hL
      | cons s rest =>
          by_cases hm : foldEq d.text s = true
          · simp only [insertLeaf, hm, if_true]
            obtain ⟨ih1, _⟩ := ihc rest hc
            constructor
            · simp only [catDistinct, Bool.and_eq_true]
              exact ⟨⟨hdcond, ih1⟩, hs⟩
            · left
              rfl
          · simp only [insertLeaf, hm, Bool.false_eq_true, if_false]
            obtain ⟨ih1, ih2⟩ := ihsib (s :: rest) hs
            have hne : gdToLower d.text ≠ gdToLower s := by
              intro hEq
              exact hm (by simp [foldEq, hEq])
            constructor
            · simp only [catDistinct, Bool.and_eq_true]
              refine ⟨⟨?_, hc⟩, ih1⟩
              rcases ih2 with heq | ⟨s0, r0, hseq, heq⟩
              · rw [heq]
                exact hdcond
              · injection hseq with ha hb
                subst ha
                subst hb
                rw [heq]
                rw [catCond_iff] at hdcond ⊢
                intro hni hmem
                rcases List.mem_append.mp hmem with h2 | h2
                · exact hdcond hni h2
                · rw [List.mem_singleton] at h2
                  exact hne h2
            · rcases ih2 with heq | ⟨s0, r0, hseq, heq⟩
              · left
                simp only [catTexts, heq]
              · right
                injection hseq with ha hb
                subst ha
                subst hb
                refine ⟨s, rest, rfl, ?_⟩
                simp only [catTexts, heq]
                by_cases hni : d.item.isNone = true <;> simp [hni]

theorem catDistinct_appendUnderFavorites (f : TTree) (L : NData)
    (hL : L.item.isSome = true) (hf : catDistinct f = true) :
    catDistinct (appendUnderFavorites f (.node L .nil .nil)) = true := by
  cases f with
  | nil => rfl
  | node d c s =>
      simp only [catDistinct, Bool.and_eq_true] at hf
      obtain ⟨⟨hd, hc⟩, hs⟩ := hf
      simp only [appendUnderFavorites, catDistinct, Bool.and_eq_true]
      exact ⟨⟨hd, catDistinct_appendSib c L hL hc⟩, hs⟩

theorem catDistinct_processItem (theme : Theme) (action_favorites : List String)
    (selection : String) (f : TTree) (item : MenuItem)
    (hf : catDistinct f = true) :
    catDistinct (processItem theme action_favorites selection f item) = true := by
  unfold processItem
  by_cases hfav : action_favorites.contains item.spec.category = true
  · simp only [hfav, if_true]
    refine catDistinct_appendUnderFavorites _ _ (by simp [make_item]) ?_
    exact (catDistinct_insertLeaf theme _ (by simp [mainLeafData, make_item]) _ f hf).1
  · have hfav' : action_favorites.contains item.spec.category = false := by simpa using hfav
    simp only [hfav', Bool.false_eq_true, if_false]
    exact (catDistinct_insertLeaf theme _ (by simp [mainLeafData, make_item]) _ f hf).1

theorem catDistinct_buildActionForest (theme : Theme) (action_favorites : List String)
    (selection : String) (items : List MenuItem) :
    catDistinct (buildActionForest theme action_favorites selection items) = true := by
  unfold buildActionForest
  have h0 : ∀ f0 : TTree, catDistinct f0 = true →
      catDistinct (items.foldl (processItem theme action_favorites selection) f0) = true := by
    induction items with
    | nil => intro f0 h; exact h
    | cons j rest ih =>
        intro f0 h
        exact ih _ (catDistinct_processItem theme action_favorites selection f0 j h)
  refine h0 _ ?_
  by_cases h : action_favorites.isEmpty = true
  · rw [if_pos h]
    rfl
  · rw [if_neg h]
    rfl

theorem catTexts_pruned_sublist (t : TTree) :
    (catTexts (remove_empty_action_nodes t)).Sublist (catTexts t) := by
  induction t with
  | nil => exact List.Sublist.refl _
  | node d c s _ihc ihs =>
      simp only [remove_empty_action_nodes]
      by_cases hcond : ((remove_empty_action_nodes c).isNil && !d.hasHandler) = true
      · rw [if_pos hcond]
        refine ihs.trans ?_
        simp only [catTexts]
        cases hni : d.item.isNone
        · simp only [Bool.false_eq_true, if_false]
          exact List.Sublist.refl _
        · simp only [if_true]
          exact List.sublist_cons_self _ _
      · rw [if_neg hcond]
        simp only [catTexts]
        cases hni : d.item.isNone
        · simp only [Bool.false_eq_true, if_false]
          exact ihs
        · simp only [if_true]
          exact ihs.cons₂ _

theorem catDistinct_pruned (t : TTree) (h : catDistinct t = true) :
    catDistinct (remove_empty_action_nodes t) = true := by
  induction t with
  | nil => rfl
  | node d c s ihc ihs =>
      simp only [catDistinct, Bool.and_eq_true] at h
      obtain ⟨⟨hd, hc⟩, hs⟩ := h
      simp only [remove_empty_action_nodes]
      by_cases hcond : ((remove_empty_action_nodes c).isNil && !d.hasHandler) = true
      · rw [if_pos hcond]
        exact ihs hs
      · rw [if_neg hcond]
        simp only [catDistinct, Bool.and_eq_true]
        refine ⟨⟨?_, ihc hc⟩, ihs hs⟩
        rw [catCond_iff] at hd ⊢
        intro hni hmem
        exact hd hni ((catTexts_pruned_sublist s).subset hmem)

/-- C2: in every filtered item list, any two actions whose slash-delimited
category prefixes (all segments but the last, of any length) agree
case-insensitively have their leaves attached as children of the one shared
node that the code's case-insensitive first-match walk reaches — `descend`
replays that walk on the finished tree, one matched node per prefix segment
in path order, so the chain it returns is the shared node's child list and
contains both actions' leaves; and in the whole constructed tree, before
and after pruning, no sibling chain holds two category nodes with the same
case-folded text, so exactly one category node exists for each path
segment, shared prefix segments included. -/
theorem shared_category_path_single_node (theme : Theme)
    (action_favorites : List String) (selection : String) (items : List MenuItem)
    (i1 i2 : MenuItem) (h1 : i1 ∈ items) (h2 : i2 ∈ items)
    (hpre : ((gdSplitChar i1.spec.category slashChar).dropLast).map gdToLower
          = ((gdSplitChar i2.spec.category slashChar).dropLast).map gdToLower) :
    (∃ chain,
      descend ((gdSplitChar i1.spec.category slashChar).dropLast)
          (buildActionForest theme action_favorites selection items) = some chain ∧
      TopMem (fun d _ => d = mainLeafData theme
          (action_favorites.contains i1.spec.category) selection i1) chain ∧
      TopMem (fun d _ => d = mainLeafData theme
          (action_favorites.contains i2.spec.category) selection i2) chain) ∧
    catDistinct (buildActionForest theme action_favorites selection items) = true ∧
    catDistinct (generate_filtered_actions theme action_favorites selection items)
      = true := by
  refine ⟨?_, catDistinct_buildActionForest theme action_favorites selection items, ?_⟩
  · obtain ⟨chain, hdes, hm1⟩ :=
      buildActionForest_descend theme action_favorites selection items i1 h1
    obtain ⟨chain2, hdes2, hm2⟩ :=
      buildActionForest_descend theme action_favorites selection items i2 h2
    rw [← descend_congr _ _ _ hpre] at hdes2
    rw [hdes] at hdes2
    injection hdes2 with hchain
    subst hchain
    exact ⟨chain, hdes, hm1, hm2⟩
  · unfold generate_filtered_actions
    exact catDistinct_pruned _
      (catDistinct_buildActionForest theme action_favorites selection items)

/-- Witness for `shared_category_path_single_node`: a three-action registry
with a favorite, where `Math/Vector/Add` and `MATH/vector/Sub` share the
two-segment prefix `Math/Vector` up to case around an unrelated
interleaved action. -/
theorem shared_category_path_single_node_witness :
    (itemVecAdd ∈ [itemVecAdd, itemOther, itemVecSub] ∧
      itemVecSub ∈ [itemVecAdd, itemOther, itemVecSub] ∧
      ((gdSplitChar itemVecAdd.spec.category slashChar).dropLast).map gdToLower
        = ((gdSplitChar itemVecSub.spec.category slashChar).dropLast).map gdToLower) ∧
    ((∃ chain,
        descend ((gdSplitChar itemVecAdd.spec.category slashChar).dropLast)
            (buildActionForest themeNone ["Math/Vector/Add"] ""
              [itemVecAdd, itemOther, itemVecSub]) = some chain ∧
        TopMem (fun d _ => d = mainLeafData themeNone
            ((["Math/Vector/Add"] : List String).contains itemVecAdd.spec.category) ""
            itemVecAdd) chain ∧
        TopMem (fun d _ => d = mainLeafData themeNone
            ((["Math/Vector/Add"] : List String).contains itemVecSub.spec.category) ""
            itemVecSub) chain) ∧
      catDistinct (buildActionForest themeNone ["Math/Vector/Add"] ""
          [itemVecAdd, itemOther, itemVecSub]) = true ∧
      catDistinct (generate_filtered_actions themeNone ["Math/Vector/Add"] ""
          [itemVecAdd, itemOther, itemVecSub]) = true) :=
  ⟨⟨by simp, by simp, by decide⟩,
    shared_category_path_single_node themeNone ["Math/Vector/Add"] ""
      [itemVecAdd, itemOther, itemVecSub] itemVecAdd itemVecSub
      (by simp) (by simp) (by decide)⟩

end Orchestrator
